import Mathlib

/-!
Verification of the DATurbulenceModel core of DAFoam (discrete adjoint with
OpenFOAM).  The repository provides the abstract interface
`src/adjoint/DAModel/DATurbulenceModel/DATurbulenceModel.H`; the only inline
implementation in that header is `prt()`, which is embedded here directly.
The remaining operations (the correction lifecycle, the residual-connectivity
merge, the LDU coefficient extraction and the transposed fixed-point solve)
are declared in the header and specified in the accompanying design document;
those are modelled from the spec and verified against it.

Scalars are modelled as rationals; OpenFOAM `FatalErrorIn(...) << exit(FatalError)`
aborts the program, which is embedded as the `error` branch of `Except`.
-/

namespace DAFoam

/-- Scalar values of the solver, modelled as rationals. -/
abbrev Scalar := ℚ

/-- Fatal conditions the interface can raise.  `fatalErrorIn fn` embeds
OpenFOAM `FatalErrorIn(fn) << exit(FatalError)`, which terminates before any
subsequent `return` statement executes. -/
inductive FoamError where
  | fatalErrorIn (functionName : String)
  | invalidArgument (functionName : String) (offender : String)
  | unknownModelType (tag : String)
  | conflictKey (key : String)
  | nonConvergence
  deriving DecidableEq

/-- Default value of the member `Prt_` of `DATurbulenceModel`
(DATurbulenceModel.H line 119: `scalar Prt_ = -9999.0;`). -/
def PrtUnset : Scalar := -9999

/-- Embedding of `DATurbulenceModel::prt()` (DATurbulenceModel.H lines
237-249): `if (Prt_ > 0) { return Prt_; } else { FatalErrorIn("getPrt") <<
exit(FatalError); return -9999.0; }`.  The `exit(FatalError)` manipulator
aborts, so the trailing `return -9999.0` is unreachable and the fatal branch
is embedded as an error result. -/
def prt (Prt_ : Scalar) : Except FoamError Scalar :=
  if Prt_ > 0 then .ok Prt_ else .error (.fatalErrorIn "getPrt")

/-- C3: if the turbulent Prandtl number was never resolved (it still holds the
construction-time default -9999.0), `prt()` fails with the fatal condition
naming the operation `getPrt`, and in particular never returns the sentinel
-9999.0 (or any other value) to the caller as a valid Prandtl number. -/
theorem prt_unset_is_fatal :
    prt PrtUnset = .error (.fatalErrorIn "getPrt") ∧
    (prt PrtUnset).isOk = false := by
  have h : prt PrtUnset = .error (.fatalErrorIn "getPrt") := by
    norm_num [prt, PrtUnset]
  exact ⟨h, by rw [h]; rfl⟩

/-- C9: `prt()` tests positivity, not mere presence: it returns the stored
value exactly when that value is strictly positive, and every non-positive
stored value (an explicitly configured zero or negative just as much as the
never-set default -9999.0) takes the same fatal branch. -/
theorem prt_tests_positivity (p : Scalar) :
    ((∃ v, prt p = .ok v) ↔ 0 < p) ∧
    (prt p = .ok p ↔ 0 < p) ∧
    (p ≤ 0 → prt p = prt PrtUnset) := by
  refine ⟨⟨?_, ?_⟩, ⟨?_, ?_⟩, ?_⟩
  · rintro ⟨v, hv⟩
    by_contra hnp
    simp [prt, hnp] at hv
  · intro hp
    exact ⟨p, by simp [prt, hp]⟩
  · intro h
    by_contra hnp
    simp [prt, hnp] at h
  · intro hp
    simp [prt, hp]
  · intro hp
    have hnp : ¬ 0 < p := not_lt.mpr hp
    norm_num [prt, hnp, PrtUnset]

/-- Witness for C9 at concrete inputs: the explicitly configured negative
value -3 takes the same fatal branch as the unset default, and the positive
value 9/10 is returned as stored. -/
theorem prt_tests_positivity_witness :
    prt (-3) = prt PrtUnset ∧ prt (9 / 10) = .ok (9 / 10) :=
  ⟨(prt_tests_positivity (-3)).2.2 (by norm_num),
    ((prt_tests_positivity (9 / 10)).2.1).mpr (by norm_num)⟩

/-- Modelled from the spec: a LinearSystemView over the LDU sparse layout of
the unstructured finite-volume discretization — one diagonal coefficient per
control volume and, per internal face connection `(owner, neighbour)`, an
`upper` coefficient (action of the neighbour value on the owner row) and a
`lower` coefficient (action of the owner value on the neighbour row). -/
structure LduMatrix where
  nCells : ℕ
  faces : List (ℕ × ℕ)
  diag : List Scalar
  upper : List Scalar
  lower : List Scalar
  deriving DecidableEq

/-- Well-formedness of an LDU system: the diagonal has one entry per control
volume, the off-diagonal arrays have one entry per face connection, and every
face connects two valid control volumes. -/
def LduMatrix.wf (M : LduMatrix) : Prop :=
  M.diag.length = M.nCells ∧
  M.upper.length = M.faces.length ∧
  M.lower.length = M.faces.length ∧
  ∀ p ∈ M.faces, p.1 < M.nCells ∧ p.2 < M.nCells

/-- Add `v` to entry `i` of a list of scalars (no-op out of range). -/
def addAt : List Scalar → ℕ → Scalar → List Scalar
  | [], _, _ => []
  | a :: as, 0, v => (a + v) :: as
  | a :: as, n + 1, v => a :: addAt as n v

/-- Pointwise product of the diagonal with a vector. -/
def diagMul (d x : List Scalar) : List Scalar :=
  List.zipWith (· * ·) d x

/-- Accumulate the off-diagonal face contributions of the LDU product: for
each face `(o, n)` with coefficients `u` (upper) and `l` (lower), row `o`
receives `u * x[n]` and row `n` receives `l * x[o]`. -/
def faceContrib : List (ℕ × ℕ) → List Scalar → List Scalar →
    List Scalar → List Scalar → List Scalar
  | (o, n) :: fs, u :: us, l :: ls, x, acc =>
      faceContrib fs us ls x (addAt (addAt acc o (u * x.getD n 0)) n (l * x.getD o 0))
  | _, _, _, _, acc => acc

/-- Matrix-vector product in the LDU representation. -/
def lduMatVec (M : LduMatrix) (x : List Scalar) : List Scalar :=
  faceContrib M.faces M.upper M.lower x (diagMul M.diag x)

/-- The algebraic transpose in the LDU representation: swap the roles of the
upper and lower off-diagonal arrays relative to the face-connection ordering
and keep the diagonal unchanged. -/
def lduTranspose (M : LduMatrix) : LduMatrix :=
  { M with upper := M.lower, lower := M.upper }

/-- Dot product of two scalar lists. -/
def dot (a b : List Scalar) : Scalar :=
  (List.zipWith (· * ·) a b).sum

/-- Bilinear sum of the off-diagonal face contributions against two vectors. -/
def faceSum : List (ℕ × ℕ) → List Scalar → List Scalar →
    List Scalar → List Scalar → Scalar
  | (o, n) :: fs, u :: us, l :: ls, x, y =>
      u * x.getD n 0 * y.getD o 0 + l * x.getD o 0 * y.getD n 0 + faceSum fs us ls x y
  | _, _, _, _, _ => 0

theorem addAt_length (a : List Scalar) (i : ℕ) (v : Scalar) :
    (addAt a i v).length = a.length := by
  induction a generalizing i with
  | nil => rfl
  | cons hd tl ih =>
    cases i with
    | zero => rfl
    | succ j => simpa [addAt] using ih j

theorem dot_addAt (a : List Scalar) (i : ℕ) (v : Scalar) (b : List Scalar)
    (hi : i < a.length) (hlen : a.length = b.length) :
    dot (addAt a i v) b = dot a b + v * b.getD i 0 := by
  induction a generalizing i b with
  | nil => simp at hi
  | cons hd tl ih =>
    cases b with
    | nil => simp at hlen
    | cons bh bt =>
      cases i with
      | zero =>
        simp [addAt, dot]
        ring
      | succ j =>
        have hj : j < tl.length := by simpa using hi
        have hl : tl.length = bt.length := by simpa using hlen
        simp only [addAt, dot, List.zipWith_cons_cons, List.sum_cons, List.getD_cons_succ]
        have := ih j bt hj hl
        simp only [dot] at this
        rw [this]
        ring

theorem faceContrib_length (fs : List (ℕ × ℕ)) (us ls x acc : List Scalar) :
    (faceContrib fs us ls x acc).length = acc.length := by
  induction fs generalizing us ls acc with
  | nil => rfl
  | cons f ft ih =>
    obtain ⟨o, n⟩ := f
    cases us with
    | nil => rfl
    | cons u ut =>
      cases ls with
      | nil => rfl
      | cons l lt =>
        simp only [faceContrib]
        rw [ih, addAt_length, addAt_length]

theorem dot_faceContrib (fs : List (ℕ × ℕ)) (us ls x acc y : List Scalar)
    (hvalid : ∀ p ∈ fs, p.1 < acc.length ∧ p.2 < acc.length)
    (hlen : acc.length = y.length) :
    dot (faceContrib fs us ls x acc) y = dot acc y + faceSum fs us ls x y := by
  induction fs generalizing us ls acc with
  | nil => simp [faceContrib, faceSum]
  | cons f ft ih =>
    obtain ⟨o, n⟩ := f
    cases us with
    | nil => simp [faceContrib, faceSum]
    | cons u ut =>
      cases ls with
      | nil => simp [faceContrib, faceSum]
      | cons l lt =>
        have ho : o < acc.length := (hvalid (o, n) (List.mem_cons_self _ _)).1
        have hn : n < acc.length := (hvalid (o, n) (List.mem_cons_self _ _)).2
        simp only [faceContrib, faceSum]
        set acc1 := addAt acc o (u * x.getD n 0) with hacc1
        set acc2 := addAt acc1 n (l * x.getD o 0) with hacc2
        have hl1 : acc1.length = acc.length := addAt_length _ _ _
        have hl2 : acc2.length = acc.length := by
          rw [hacc2, addAt_length, hl1]
        have hv2 : ∀ p ∈ ft, p.1 < acc2.length ∧ p.2 < acc2.length := by
          intro p hp
          rw [hl2]
          exact hvalid p (List.mem_cons_of_mem _ hp)
        rw [ih ut lt acc2 hv2 (hl2.trans hlen)]
        rw [hacc2, dot_addAt acc1 n _ y (by rw [hl1]; exact hn) (hl1.trans hlen)]
        rw [hacc1, dot_addAt acc o _ y ho hlen]
        ring

theorem dot_comm (a b : List Scalar) : dot a b = dot b a := by
  induction a generalizing b with
  | nil => cases b <;> simp [dot]
  | cons hd tl ih =>
    cases b with
    | nil => simp [dot]
    | cons bh bt =>
      simp only [dot, List.zipWith_cons_cons, List.sum_cons]
      have := ih bt
      simp only [dot] at this
      rw [this, mul_comm]

theorem dot_diagMul_comm (d x y : List Scalar) :
    dot (diagMul d x) y = dot (diagMul d y) x := by
  induction d generalizing x y with
  | nil => simp [dot, diagMul]
  | cons dh dt ih =>
    cases x with
    | nil => simp [dot, diagMul]
    | cons xh xt =>
      cases y with
      | nil => simp [dot, diagMul]
      | cons yh yt =>
        simp only [diagMul, dot, List.zipWith_cons_cons, List.sum_cons]
        have := ih xt yt
        simp only [diagMul, dot] at this
        rw [this]
        ring

theorem faceSum_swap (fs : List (ℕ × ℕ)) (us ls x y : List Scalar) :
    faceSum fs us ls x y = faceSum fs ls us y x := by
  induction fs generalizing us ls with
  | nil => simp [faceSum]
  | cons f ft ih =>
    obtain ⟨o, n⟩ := f
    cases us with
    | nil => simp [faceSum]
    | cons u ut =>
      cases ls with
      | nil => simp [faceSum]
      | cons l lt =>
        simp only [faceSum]
        rw [ih ut lt]
        ring

theorem diagMul_length (d x : List Scalar) :
    (diagMul d x).length = min d.length x.length := by
  simp [diagMul]

/-- Swapping the upper and lower arrays while keeping the diagonal realizes
the algebraic transpose: the dot-product adjoint identity holds. -/
theorem lduTranspose_is_adjoint (M : LduMatrix) (x y : List Scalar)
    (hwf : M.wf) (hx : x.length = M.nCells) (hy : y.length = M.nCells) :
    dot (lduMatVec M x) y = dot x (lduMatVec (lduTranspose M) y) := by
  obtain ⟨hd, hu, hl, hf⟩ := hwf
  have hdx : (diagMul M.diag x).length = M.nCells := by
    rw [diagMul_length, hd, hx, min_self]
  have hdy : (diagMul M.diag y).length = M.nCells := by
    rw [diagMul_length, hd, hy, min_self]
  have hvx : ∀ p ∈ M.faces, p.1 < (diagMul M.diag x).length ∧
      p.2 < (diagMul M.diag x).length := by
    intro p hp
    rw [hdx]
    exact hf p hp
  have hvy : ∀ p ∈ M.faces, p.1 < (diagMul M.diag y).length ∧
      p.2 < (diagMul M.diag y).length := by
    intro p hp
    rw [hdy]
    exact hf p hp
  have left : dot (lduMatVec M x) y =
      dot (diagMul M.diag x) y + faceSum M.faces M.upper M.lower x y := by
    exact dot_faceContrib M.faces M.upper M.lower x (diagMul M.diag x) y hvx
      (by rw [hdx, hy])
  have right : dot (lduMatVec (lduTranspose M) y) x =
      dot (diagMul M.diag y) x + faceSum M.faces M.lower M.upper y x := by
    exact dot_faceContrib M.faces M.lower M.upper y (diagMul M.diag y) x hvy
      (by rw [hdy, hx])
  rw [left, dot_comm x (lduMatVec (lduTranspose M) y), right,
    dot_diagMul_comm, faceSum_swap]

/-- Absolute value of a scalar. -/
def qabs (q : Scalar) : Scalar :=
  if q < 0 then -q else q

/-- Residual `b - M·x` of a candidate solution. -/
def residual (M : LduMatrix) (b x : List Scalar) : List Scalar :=
  List.zipWith (· - ·) b (lduMatVec M x)

/-- One-norm used as the convergence measure of the iterative solves. -/
def resNorm (r : List Scalar) : Scalar :=
  (r.map qabs).sum

/-- Modelled from the spec: one sweep of the matrix-free fixed-point (Jacobi)
iteration used by the forward and transposed solves, producing one entry per
control volume. -/
def jacobiStep (M : LduMatrix) (b x : List Scalar) : List Scalar :=
  let off := faceContrib M.faces M.upper M.lower x (List.replicate M.nCells 0)
  (List.range M.nCells).map
    (fun i => (b.getD i 0 - off.getD i 0) / M.diag.getD i 0)

/-- Modelled from the spec: the bounded iterative linear solve shared by the
forward (`rhsSolvePseudoNuTildaEqn`) and transposed (`solveAdjointFP`) paths.
It returns the current iterate once the residual norm reaches the caller's
tolerance, and reports non-convergence as a distinct outcome when the
iteration budget is exhausted first — never a partial result as success. -/
def solveIter (M : LduMatrix) (b : List Scalar) (tol : Scalar) :
    ℕ → List Scalar → Except FoamError (List Scalar)
  | 0, _ => .error .nonConvergence
  | fuel + 1, x =>
      if resNorm (residual M b x) ≤ tol then .ok x
      else solveIter M b tol fuel (jacobiStep M b x)

theorem jacobiStep_length (M : LduMatrix) (b x : List Scalar) :
    (jacobiStep M b x).length = M.nCells := by
  simp [jacobiStep]

/-- A successful bounded solve really converged: the returned iterate meets
the tolerance, and it has one entry per control volume whenever the initial
guess does. -/
theorem solveIter_ok (M : LduMatrix) (b : List Scalar) (tol : Scalar)
    (fuel : ℕ) (x r : List Scalar)
    (h : solveIter M b tol fuel x = .ok r) :
    resNorm (residual M b r) ≤ tol ∧ (x.length = M.nCells → r.length = M.nCells) := by
  induction fuel generalizing x with
  | zero => exact absurd h (by simp [solveIter])
  | succ n ih =>
    by_cases hc : resNorm (residual M b x) ≤ tol
    · have hr : r = x := by
        simp [solveIter, hc] at h
        exact h.symm
      subst hr
      exact ⟨hc, fun hx => hx⟩
    · have h2 : solveIter M b tol n (jacobiStep M b x) = .ok r := by
        simpa [solveIter, hc] using h
      obtain ⟨h3, h4⟩ := ih (jacobiStep M b x) h2
      exact ⟨h3, fun _ => h4 (jacobiStep_length M b x)⟩

/-- An exhausted iteration budget is reported as the distinct
non-convergence outcome. -/
theorem solveIter_budget_exhausted (M : LduMatrix) (b : List Scalar)
    (tol : Scalar) (x : List Scalar) :
    solveIter M b tol 0 x = .error .nonConvergence := by
  simp [solveIter]

/-- A geometric scalar field: interior values (one per control volume of the
local partition) plus boundary-patch values. -/
structure ScalarField where
  interior : List Scalar
  boundary : List Scalar
  deriving DecidableEq

/-- Behaviour flags of `calcResiduals` (spec 4.1): which residual
normalization to apply and whether boundary residuals are included. -/
structure ResOptions where
  normalizeMode : String
  withBoundaryRes : Bool
  deriving DecidableEq

/-- Modelled from the spec: the state of one ClosureModel (DATurbulenceModel)
instance — the owned transport-equation unknowns with their clip bounds, the
shared eddy-viscosity field with its clip bound, the residual-field cache,
the per-variable constructed linear systems exposed through
`getFvMatrixFields`, and the turbulent Prandtl number. -/
structure DATurbModel where
  stateNames : List String
  states : List ScalarField
  stateBounds : List Scalar
  nut : ScalarField
  nutBound : Scalar
  residualCache : List (List Scalar)
  eqns : List (String × LduMatrix)
  Prt : Scalar
  deriving DecidableEq

/-- Modelled from the spec: `correctBoundaryConditions()` refreshes the
boundary values of every owned field from the current interior solution
(`bcFun` is the boundary-evaluation rule the mesh collaborator provides). -/
def correctBoundaryConditions (bcFun : List Scalar → List Scalar)
    (m : DATurbModel) : DATurbModel :=
  { m with states := m.states.map (fun f => { f with boundary := bcFun f.interior }) }

/-- Clip the interior values of a field at a lower bound. -/
def clipInterior (bound : Scalar) (f : ScalarField) : ScalarField :=
  { f with interior := f.interior.map (fun v => max bound v) }

/-- Modelled from the spec: `correctNut()` recomputes the eddy viscosity from
the model's state variables (`nutCalc` is the closure's algebraic relation)
and enforces its clip bound on the shared field. -/
def correctNut (nutCalc : DATurbModel → List Scalar) (m : DATurbModel) :
    DATurbModel :=
  { m with nut := { m.nut with interior := (nutCalc m).map (fun v => max m.nutBound v) } }

/-- Modelled from the spec: `correct(printLevel)` runs one atomic forward
update — boundary correction, equation assembly and solve (`upd`, the
closure's nonlinear update of the owned fields), clipping of every owned
state at its configured bound, and the eddy-viscosity update.  `printLevel`
only controls diagnostics and has no numerical effect. -/
def correct (upd : List ScalarField → List ScalarField)
    (nutCalc : DATurbModel → List Scalar) (bcFun : List Scalar → List Scalar)
    (_printLevel : ℕ) (m : DATurbModel) : DATurbModel :=
  let m1 := correctBoundaryConditions bcFun m
  let m2 := { m1 with states := List.zipWith clipInterior m1.stateBounds (upd m1.states) }
  correctNut nutCalc m2

/-- Modelled from the spec: `calcResiduals(options)` evaluates the nonlinear
residual of the owned transport equations under the given behaviour flags
(`resCalc` is the closure's residual formula) and stores it in the
residual-field cache. -/
def calcResiduals (resCalc : ResOptions → DATurbModel → List (List Scalar))
    (opts : ResOptions) (m : DATurbModel) : DATurbModel :=
  { m with residualCache := resCalc opts m }

/-- Modelled from the spec: `correctModelStates(names)` is a const query
populating the caller's collection with the owned state-variable names; it
returns the unchanged model alongside to make constness explicit. -/
def correctModelStates (m : DATurbModel) : List String × DATurbModel :=
  (m.stateNames, m)

/-- Modelled from the spec: `getFvMatrixFields(varName, diag, upper, lower)`
returns the three coefficient arrays of the named owned equation and fails
with an invalid-argument condition for a name the model does not own. -/
def getFvMatrixFields (m : DATurbModel) (varName : String) :
    Except FoamError (List Scalar × List Scalar × List Scalar) :=
  match m.eqns.lookup varName with
  | some M => .ok (M.diag, M.upper, M.lower)
  | none => .error (.invalidArgument "getFvMatrixFields" varName)

/-- Modelled from the spec: `solveAdjointFP(varName, rhs, dPsi)` solves the
algebraic transpose of the linear system identified by `varName` — formed
from the same coefficient arrays `getFvMatrixFields` returns, with the two
off-diagonal arrays swapped and the diagonal unchanged — by the bounded
fixed-point iteration, starting from the zero vector. -/
def solveAdjointFP (m : DATurbModel) (varName : String) (rhs : List Scalar)
    (tol : Scalar) (maxIter : ℕ) : Except FoamError (List Scalar) :=
  match m.eqns.lookup varName with
  | some M => solveIter (lduTranspose M) rhs tol maxIter (List.replicate M.nCells 0)
  | none => .error (.invalidArgument "solveAdjointFP" varName)

/-- Modelled from the spec: `rhsSolvePseudoNuTildaEqn(source)` solves the
constructed pseudo equation in the forward sense with `source` as the
right-hand side, by the same bounded iteration family. -/
def rhsSolvePseudoNuTildaEqn (m : DATurbModel) (source : List Scalar)
    (tol : Scalar) (maxIter : ℕ) : Except FoamError (List Scalar) :=
  match m.eqns.lookup "nuTilda" with
  | some M => solveIter M source tol maxIter (List.replicate M.nCells 0)
  | none => .error (.invalidArgument "rhsSolvePseudoNuTildaEqn" "nuTilda")

/-- C1: for every variable name that names an equation owned by the model,
`solveAdjointFP` solves the algebraic transpose of the linear system whose
three coefficient arrays `getFvMatrixFields` returns: the transposed system
keeps the diagonal unchanged and swaps the roles of the upper and lower
off-diagonal arrays relative to the face-connection ordering (which really is
the adjoint, witnessed by the dot-product identity), and the returned result
meets the tolerance on that transposed system and has one entry per control
volume, aligned with the diagonal array's ordering. -/
theorem solveAdjointFP_solves_transpose (m : DATurbModel) (varName : String)
    (M : LduMatrix) (rhs res : List Scalar) (tol : Scalar) (maxIter : ℕ)
    (hM : m.eqns.lookup varName = some M) (hwf : M.wf)
    (hok : solveAdjointFP m varName rhs tol maxIter = .ok res) :
    getFvMatrixFields m varName = .ok (M.diag, M.upper, M.lower) ∧
    (lduTranspose M).diag = M.diag ∧
    (lduTranspose M).upper = M.lower ∧
    (lduTranspose M).lower = M.upper ∧
    res.length = M.diag.length ∧
    resNorm (residual (lduTranspose M) rhs res) ≤ tol ∧
    ∀ x y : List Scalar, x.length = M.nCells → y.length = M.nCells →
      dot (lduMatVec M x) y = dot x (lduMatVec (lduTranspose M) y) := by
  have hget : getFvMatrixFields m varName = .ok (M.diag, M.upper, M.lower) := by
    simp [getFvMatrixFields, hM]
  have hsolve : solveIter (lduTranspose M) rhs tol maxIter
      (List.replicate M.nCells 0) = .ok res := by
    simpa [solveAdjointFP, hM] using hok
  obtain ⟨hres, hlen⟩ := solveIter_ok (lduTranspose M) rhs tol maxIter
    (List.replicate M.nCells 0) res hsolve
  refine ⟨hget, rfl, rfl, rfl, ?_, hres, ?_⟩
  · have : res.length = (lduTranspose M).nCells := hlen (by simp [lduTranspose])
    rw [this]
    exact (hwf.1).symm
  · intro x y hx hy
    exact lduTranspose_is_adjoint M x y hwf hx hy

/-- The two-volume, one-connection sample system of the spec's end-to-end
scenario: diag = [2, 2], upper = lower = [-1]. -/
def sampleEqn : LduMatrix :=
  { nCells := 2, faces := [(0, 1)], diag := [2, 2], upper := [-1], lower := [-1] }

/-- A concrete Spalart-Allmaras-like model owning the single equation
`nuTilda`, carrying the sample system. -/
def sampleModel : DATurbModel :=
  { stateNames := ["nuTilda"],
    states := [{ interior := [1, 1], boundary := [1] }],
    stateBounds := [1 / 10 ^ 16],
    nut := { interior := [1, 1], boundary := [1] },
    nutBound := 1 / 10 ^ 16,
    residualCache := [],
    eqns := [("nuTilda", sampleEqn)],
    Prt := 9 / 10 }

theorem sample_solve_eval :
    solveIter (lduTranspose sampleEqn) [1, 1] 1 5 (List.replicate 2 0) =
      .ok [1 / 2, 1 / 2] := by
  norm_num [solveIter, sampleEqn, lduTranspose, jacobiStep, resNorm, residual,
    qabs, lduMatVec, faceContrib, addAt, diagMul, List.getD,
    List.range_succ, List.range_zero]

/-- Witness for C1 on the sample model: the transpose solve with
rhs = [1, 1] and tolerance 1 converges to [1/2, 1/2], with every conclusion
of the claim realized concretely. -/
theorem solveAdjointFP_solves_transpose_witness :
    getFvMatrixFields sampleModel "nuTilda" =
      .ok (sampleEqn.diag, sampleEqn.upper, sampleEqn.lower) ∧
    (lduTranspose sampleEqn).diag = sampleEqn.diag ∧
    (lduTranspose sampleEqn).upper = sampleEqn.lower ∧
    (lduTranspose sampleEqn).lower = sampleEqn.upper ∧
    ([1 / 2, 1 / 2] : List Scalar).length = sampleEqn.diag.length ∧
    resNorm (residual (lduTranspose sampleEqn) [1, 1] [1 / 2, 1 / 2]) ≤ 1 ∧
    ∀ x y : List Scalar, x.length = sampleEqn.nCells → y.length = sampleEqn.nCells →
      dot (lduMatVec sampleEqn x) y = dot x (lduMatVec (lduTranspose sampleEqn) y) :=
  solveAdjointFP_solves_transpose sampleModel "nuTilda" sampleEqn [1, 1]
    [1 / 2, 1 / 2] 1 5 (by simp [sampleModel, List.lookup])
    (by norm_num [LduMatrix.wf, sampleEqn])
    (by simpa [solveAdjointFP, sampleModel, sampleEqn, List.lookup]
      using sample_solve_eval)

/-- The intentionally singular system of the spec's non-convergence
scenario: all-zero diagonal and off-diagonal coefficients. -/
def singEqn : LduMatrix :=
  { nCells := 2, faces := [(0, 1)], diag := [0, 0], upper := [0], lower := [0] }

/-- A model owning the singular `nuTilda` equation. -/
def singModel : DATurbModel :=
  { sampleModel with eqns := [("nuTilda", singEqn)] }

theorem singEqn_transpose : lduTranspose singEqn = singEqn := rfl

theorem singEqn_jacobi (x : List Scalar) :
    jacobiStep singEqn [1, 1] x = [0, 0] := by
  norm_num [jacobiStep, singEqn, faceContrib, addAt, List.getD,
    List.range_succ, List.range_zero, List.replicate]

theorem singEqn_stuck (fuel : ℕ) :
    solveIter singEqn [1, 1] (1 / 100) fuel [0, 0] = .error .nonConvergence := by
  induction fuel with
  | zero => simp [solveIter]
  | succ n ih =>
    rw [solveIter, if_neg, singEqn_jacobi]
    · exact ih
    · norm_num [resNorm, residual, singEqn, lduMatVec, faceContrib, addAt,
        diagMul, qabs, List.getD]

/-- C4: every iterative linear solve (forward or transpose) is bounded by an
iteration/tolerance budget: a result returned as success meets the tolerance
(never a partial solution), an exhausted budget is the distinct
non-convergence outcome, and on the singular all-zero system both the
transposed and the forward solve report non-convergence for every budget. -/
theorem iterativeSolve_bounded_reports_nonconvergence (fuel : ℕ) :
    (∀ (M : LduMatrix) (b : List Scalar) (tol : Scalar) (x r : List Scalar),
      solveIter M b tol fuel x = .ok r → resNorm (residual M b r) ≤ tol) ∧
    (∀ (M : LduMatrix) (b : List Scalar) (tol : Scalar) (x : List Scalar),
      solveIter M b tol 0 x = .error .nonConvergence) ∧
    solveAdjointFP singModel "nuTilda" [1, 1] (1 / 100) fuel =
      .error .nonConvergence ∧
    rhsSolvePseudoNuTildaEqn singModel [1, 1] (1 / 100) fuel =
      .error .nonConvergence := by
  have hrun : solveAdjointFP singModel "nuTilda" [1, 1] (1 / 100) fuel =
      solveIter singEqn [1, 1] (1 / 100) fuel [0, 0] := by
    simp [solveAdjointFP, singModel, List.lookup, singEqn_transpose]
    rfl
  have hfwd : rhsSolvePseudoNuTildaEqn singModel [1, 1] (1 / 100) fuel =
      solveIter singEqn [1, 1] (1 / 100) fuel [0, 0] := by
    simp [rhsSolvePseudoNuTildaEqn, singModel, List.lookup]
    rfl
  refine ⟨fun M b tol x r h => (solveIter_ok M b tol fuel x r h).1,
    fun M b tol x => solveIter_budget_exhausted M b tol x, ?_, ?_⟩
  · rw [hrun]; exact singEqn_stuck fuel
  · rw [hfwd]; exact singEqn_stuck fuel

/-- Witness for C4: a concrete successful solve really met its tolerance,
and the singular system concretely reports non-convergence at budget 30. -/
theorem iterativeSolve_bounded_reports_nonconvergence_witness :
    resNorm (residual (lduTranspose sampleEqn) [1, 1] [1 / 2, 1 / 2]) ≤ 1 ∧
    solveAdjointFP singModel "nuTilda" [1, 1] (1 / 100) 30 =
      .error .nonConvergence :=
  ⟨(iterativeSolve_bounded_reports_nonconvergence 5).1 (lduTranspose sampleEqn)
      [1, 1] 1 (List.replicate 2 0) [1 / 2, 1 / 2] sample_solve_eval,
    (iterativeSolve_bounded_reports_nonconvergence 30).2.2.1⟩

/-- Modelled from the spec: resolution of one clip bound at construction —
a configured override is taken when physically admissible (strictly
positive), otherwise the strictly positive physical default applies, so
the CoefficientTable invariant holds from construction on. -/
def resolveBound (override : Option Scalar) (defaultValue : Scalar) : Scalar :=
  match override with
  | some v => if 0 < v then v else defaultValue
  | none => defaultValue

/-- The strictly positive default lower limit (a SMALL-like floor). -/
def smallDefault : Scalar := 1 / 10 ^ 16

/-- Clip bounds of the CoefficientTable as loaded at construction. -/
def mkBounds (overrides : List (Option Scalar)) : List Scalar :=
  overrides.map (fun o => resolveBound o smallDefault)

theorem resolveBound_pos (override : Option Scalar) :
    0 < resolveBound override smallDefault := by
  cases override with
  | none => norm_num [resolveBound, smallDefault]
  | some v =>
    by_cases hv : 0 < v
    · simp [resolveBound, hv]
    · simp only [resolveBound, if_neg hv]
      norm_num [smallDefault]

theorem clipInterior_zip_le (bs : List Scalar) (xs : List ScalarField) :
    ∀ p ∈ List.zip bs (List.zipWith clipInterior bs xs),
      ∀ v ∈ p.2.interior, p.1 ≤ v := by
  induction bs generalizing xs with
  | nil => simp
  | cons b bt ih =>
    cases xs with
    | nil => simp
    | cons x xt =>
      intro p hp
      simp only [List.zipWith_cons_cons, List.zip_cons_cons, List.mem_cons] at hp
      rcases hp with hp | hp
      · subst hp
        intro v hv
        simp only [clipInterior, List.mem_map] at hv
        obtain ⟨w, _, hw⟩ := hv
        rw [← hw]
        exact le_max_left b w
      · exact ih xt p hp

/-- C2: after every `correct(printLevel)` call, every owned state variable is
at least its configured clip bound at every control volume and the shared
eddy-viscosity field is at least its clip bound; the bounds themselves are
strictly positive as resolved at construction and are left unchanged by
`correct`. -/
theorem correct_enforces_clip_bounds
    (upd : List ScalarField → List ScalarField)
    (nutCalc : DATurbModel → List Scalar) (bcFun : List Scalar → List Scalar)
    (printLevel : ℕ) (m : DATurbModel) (overrides : List (Option Scalar)) :
    (∀ p ∈ List.zip (correct upd nutCalc bcFun printLevel m).stateBounds
        (correct upd nutCalc bcFun printLevel m).states,
      ∀ v ∈ p.2.interior, p.1 ≤ v) ∧
    (∀ v ∈ (correct upd nutCalc bcFun printLevel m).nut.interior,
      (correct upd nutCalc bcFun printLevel m).nutBound ≤ v) ∧
    (correct upd nutCalc bcFun printLevel m).stateBounds = m.stateBounds ∧
    (correct upd nutCalc bcFun printLevel m).nutBound = m.nutBound ∧
    (∀ b ∈ mkBounds overrides, 0 < b) := by
  refine ⟨?_, ?_, rfl, rfl, ?_⟩
  · simp only [correct, correctNut, correctBoundaryConditions]
    exact clipInterior_zip_le m.stateBounds _
  · intro v hv
    simp only [correct, correctNut, correctBoundaryConditions, List.mem_map] at hv ⊢
    obtain ⟨w, _, hw⟩ := hv
    rw [← hw]
    exact le_max_left _ w
  · intro b hb
    simp only [mkBounds, List.mem_map] at hb
    obtain ⟨o, _, ho⟩ := hb
    rw [← ho]
    exact resolveBound_pos o

/-- Witness for C2 at a concrete model and a nonlinear update that tries to
push the fields below their bounds. -/
theorem correct_enforces_clip_bounds_witness :
    (∀ p ∈ List.zip (correct (fun _ => [{ interior := [-5, 3], boundary := [0] }])
        (fun _ => [-1, 2]) id 0 sampleModel).stateBounds
        (correct (fun _ => [{ interior := [-5, 3], boundary := [0] }])
        (fun _ => [-1, 2]) id 0 sampleModel).states,
      ∀ v ∈ p.2.interior, p.1 ≤ v) ∧
    (∀ v ∈ (correct (fun _ => [{ interior := [-5, 3], boundary := [0] }])
        (fun _ => [-1, 2]) id 0 sampleModel).nut.interior,
      (correct (fun _ => [{ interior := [-5, 3], boundary := [0] }])
        (fun _ => [-1, 2]) id 0 sampleModel).nutBound ≤ v) ∧
    (correct (fun _ => [{ interior := [-5, 3], boundary := [0] }])
        (fun _ => [-1, 2]) id 0 sampleModel).stateBounds = sampleModel.stateBounds ∧
    (correct (fun _ => [{ interior := [-5, 3], boundary := [0] }])
        (fun _ => [-1, 2]) id 0 sampleModel).nutBound = sampleModel.nutBound ∧
    (∀ b ∈ mkBounds [some 2, some (-7), none], 0 < b) :=
  correct_enforces_clip_bounds (fun _ => [{ interior := [-5, 3], boundary := [0] }])
    (fun _ => [-1, 2]) id 0 sampleModel [some 2, some (-7), none]

/-- C8: for every options dictionary, `calcResiduals(options)` updates only
the residual-field cache: the state variables (the transport-equation
unknowns), their names and bounds, the eddy-viscosity field and its bound,
the stored equations and the Prandtl number are all left unchanged. -/
theorem calcResiduals_frame
    (resCalc : ResOptions → DATurbModel → List (List Scalar))
    (opts : ResOptions) (m : DATurbModel) :
    (calcResiduals resCalc opts m).states = m.states ∧
    (calcResiduals resCalc opts m).stateNames = m.stateNames ∧
    (calcResiduals resCalc opts m).stateBounds = m.stateBounds ∧
    (calcResiduals resCalc opts m).nut = m.nut ∧
    (calcResiduals resCalc opts m).nutBound = m.nutBound ∧
    (calcResiduals resCalc opts m).eqns = m.eqns ∧
    (calcResiduals resCalc opts m).Prt = m.Prt ∧
    (calcResiduals resCalc opts m).residualCache = resCalc opts m :=
  ⟨rfl, rfl, rfl, rfl, rfl, rfl, rfl, rfl⟩

/-- C7: `correctBoundaryConditions()` is idempotent — with no intervening
change to the interior solution, calling it twice produces exactly the same
model (and hence the same boundary values) as calling it once, for every
boundary-evaluation rule and every model state. -/
theorem correctBoundaryConditions_idempotent
    (bcFun : List Scalar → List Scalar) (m : DATurbModel) :
    correctBoundaryConditions bcFun (correctBoundaryConditions bcFun m) =
      correctBoundaryConditions bcFun m := by
  have hf : ((fun f => { f with boundary := bcFun f.interior }) ∘
      (fun f => { f with boundary := bcFun f.interior })) =
      (fun f : ScalarField => { f with boundary := bcFun f.interior }) := by
    funext x
    rfl
  simp only [correctBoundaryConditions, List.map_map, hf]

/-- The global keyed connectivity table of the outer adjoint engine. -/
abbrev ConTable := List (String × List (List String))

/-- Modelled from the spec: `addModelResidualCon(allCon)` merges this model's
connectivity into the global keyed table — a no-op when the model contributes
no entries, a reported conflict when the model's key is already present, and
otherwise an append that touches no other key's entry. -/
def addModelResidualCon (modelKey : String) (modelCon : List (List String))
    (allCon : ConTable) : Except FoamError ConTable :=
  if modelCon.isEmpty then .ok allCon
  else
    match allCon.lookup modelKey with
    | some _ => .error (.conflictKey modelKey)
    | none => .ok (allCon ++ [(modelKey, modelCon)])

theorem lookup_append_single_ne (k key : String) (con : List (List String))
    (l : ConTable) (hk : k ≠ key) :
    List.lookup k (l ++ [(key, con)]) = List.lookup k l := by
  induction l with
  | nil =>
    simp only [List.nil_append, List.lookup]
    rw [beq_eq_false_iff_ne.mpr hk]
  | cons hd tl ih =>
    obtain ⟨a, b⟩ := hd
    cases hbe : k == a with
    | true => simp [List.lookup, hbe]
    | false => simp [List.lookup, hbe, ih]

theorem lookup_append_single_self (key : String) (con : List (List String))
    (l : ConTable) (hl : List.lookup key l = none) :
    List.lookup key (l ++ [(key, con)]) = some con := by
  induction l with
  | nil => simp [List.lookup]
  | cons hd tl ih =>
    obtain ⟨a, b⟩ := hd
    cases hbe : key == a with
    | true => simp [List.lookup, hbe] at hl
    | false =>
      simp only [List.lookup, hbe] at hl
      simp [List.lookup, hbe, ih hl]

/-- C5: `addModelResidualCon` is a no-op when the model contributes no
connectivity entries; a successful merge never changes the entry stored under
any other model's key; and merging twice under the same model key is detected
and reported as a conflict instead of silently duplicating or overwriting. -/
theorem addModelResidualCon_merge (modelKey : String)
    (modelCon : List (List String)) (allCon : ConTable) :
    (modelCon = [] → addModelResidualCon modelKey modelCon allCon = .ok allCon) ∧
    (∀ t, addModelResidualCon modelKey modelCon allCon = .ok t →
      ∀ k, k ≠ modelKey → t.lookup k = allCon.lookup k) ∧
    (modelCon ≠ [] → ∀ t, addModelResidualCon modelKey modelCon allCon = .ok t →
      addModelResidualCon modelKey modelCon t = .error (.conflictKey modelKey)) := by
  refine ⟨?_, ?_, ?_⟩
  · intro h
    simp [addModelResidualCon, h]
  · intro t ht k hk
    by_cases hemp : modelCon.isEmpty
    · have : t = allCon := by
        simp [addModelResidualCon, hemp] at ht
        exact ht.symm
      rw [this]
    · cases hl : allCon.lookup modelKey with
      | some c => simp [addModelResidualCon, hemp, hl] at ht
      | none =>
        have : t = allCon ++ [(modelKey, modelCon)] := by
          simp [addModelResidualCon, hemp, hl] at ht
          exact ht.symm
        rw [this]
        exact lookup_append_single_ne k modelKey modelCon allCon hk
  · intro hne t ht
    have hemp : ¬ modelCon.isEmpty := by
      simpa [List.isEmpty_iff] using hne
    cases hl : allCon.lookup modelKey with
    | some c => simp [addModelResidualCon, hemp, hl] at ht
    | none =>
      have hteq : t = allCon ++ [(modelKey, modelCon)] := by
        simp [addModelResidualCon, hemp, hl] at ht
        exact ht.symm
      have hfound : t.lookup modelKey = some modelCon := by
        rw [hteq]
        exact lookup_append_single_self modelKey modelCon allCon hl
      simp [addModelResidualCon, hemp, hfound]

/-- Witness for C5: merging a turbulence key into a table already holding the
flow key leaves the flow entry alone, and a second merge under the same
turbulence key is reported as a conflict. -/
theorem addModelResidualCon_merge_witness :
    List.lookup "flowKey"
        [("flowKey", [["URes"]]), ("turbKey", [["nuTildaRes", "URes"]])] =
      List.lookup "flowKey" [("flowKey", [["URes"]])] ∧
    addModelResidualCon "turbKey" [["nuTildaRes", "URes"]]
        [("flowKey", [["URes"]]), ("turbKey", [["nuTildaRes", "URes"]])] =
      .error (.conflictKey "turbKey") :=
  ⟨(addModelResidualCon_merge "turbKey" [["nuTildaRes", "URes"]]
      [("flowKey", [["URes"]])]).2.1
      [("flowKey", [["URes"]]), ("turbKey", [["nuTildaRes", "URes"]])]
      (by simp [addModelResidualCon, List.lookup])
      "flowKey" (by simp),
    (addModelResidualCon_merge "turbKey" [["nuTildaRes", "URes"]]
      [("flowKey", [["URes"]])]).2.2 (by simp)
      [("flowKey", [["URes"]]), ("turbKey", [["nuTildaRes", "URes"]])]
      (by simp [addModelResidualCon, List.lookup])⟩

/-- A concrete two-equation k-epsilon closure instance. -/
def kEpsilonModel : DATurbModel :=
  { stateNames := ["k", "epsilon"],
    states := [{ interior := [1, 1], boundary := [1] },
               { interior := [1, 1], boundary := [1] }],
    stateBounds := [1 / 10 ^ 16, 1 / 10 ^ 16],
    nut := { interior := [1, 1], boundary := [1] },
    nutBound := 1 / 10 ^ 16,
    residualCache := [],
    eqns := [],
    Prt := 9 / 10 }

/-- A concrete two-equation k-omega closure instance. -/
def kOmegaModel : DATurbModel :=
  { kEpsilonModel with stateNames := ["k", "omega"] }

/-- Modelled from the spec: the process-wide, append-only run-time selection
table mapping model type tags to constructed closure variants. -/
def modelRegistry : List (String × DATurbModel) :=
  [("SpalartAllmarasFv3", sampleModel),
   ("kEpsilon", kEpsilonModel),
   ("kOmegaSST", kOmegaModel)]

/-- Modelled from the spec: `DATurbulenceModel::New` / `ModelRegistry::create`
selects the registered constructor for a type tag and fails with an
unknown-model-type condition for an unregistered tag. -/
def New (modelType : String) : Except FoamError DATurbModel :=
  match modelRegistry.lookup modelType with
  | some m => .ok m
  | none => .error (.unknownModelType modelType)

theorem lookup_mem_snd {α β : Type} [BEq α] (k : α) (l : List (α × β)) (v : β)
    (h : List.lookup k l = some v) : ∃ p ∈ l, p.2 = v := by
  induction l with
  | nil => simp [List.lookup] at h
  | cons hd tl ih =>
    obtain ⟨a, b⟩ := hd
    cases hbe : k == a with
    | true =>
      simp only [List.lookup, hbe] at h
      exact ⟨(a, b), List.mem_cons_self _ _, by simpa using h⟩
    | false =>
      simp only [List.lookup, hbe] at h
      obtain ⟨p, hp, hv⟩ := ih h
      exact ⟨p, List.mem_cons_of_mem _ hp, hv⟩

/-- C6: for every registered model type tag, constructing through the
registry and calling `correctModelStates` yields a non-empty list of owned
state-variable names, mutates nothing on the model, and repeated calls with
unchanged state return the same list. -/
theorem New_correctModelStates_stable (tag : String) (m : DATurbModel)
    (h : New tag = .ok m) :
    (correctModelStates m).1 ≠ [] ∧
    (correctModelStates m).2 = m ∧
    (correctModelStates ((correctModelStates m).2)).1 = (correctModelStates m).1 := by
  refine ⟨?_, rfl, rfl⟩
  unfold New at h
  cases hl : modelRegistry.lookup tag with
  | none => rw [hl] at h; exact Except.noConfusion h
  | some m2 =>
    rw [hl] at h
    have hm : m2 = m := by injection h
    obtain ⟨p, hp, hv⟩ := lookup_mem_snd tag modelRegistry m2 hl
    have hne : p.2.stateNames ≠ [] := by
      simp only [modelRegistry, List.mem_cons, List.not_mem_nil, or_false] at hp
      rcases hp with hp | hp | hp <;>
        simp [hp, sampleModel, kEpsilonModel, kOmegaModel]
    rw [correctModelStates, ← hm, ← hv]
    exact hne

/-- Witness for C6 at the registered Spalart-Allmaras tag. -/
theorem New_correctModelStates_stable_witness :
    (correctModelStates sampleModel).1 ≠ [] ∧
    (correctModelStates sampleModel).2 = sampleModel ∧
    (correctModelStates ((correctModelStates sampleModel).2)).1 =
      (correctModelStates sampleModel).1 :=
  New_correctModelStates_stable "SpalartAllmarasFv3" sampleModel
    (by simp [New, modelRegistry, List.lookup])

end DAFoam
